import Mathlib

/-!
# fish-shell `io.cpp`: redirection chains and buffered capture

A shallow embedding of `src/io.cpp`.  Objects of type `io_data_t` live in an
explicit heap and are named by addresses, a chain (`io_chain_t`) is the
sequence of addresses it stores, and the operating-system collaborators
(`exec_pipe`, `fcntl`, `read_blocked`, `exec_close`, `debug`, `wperror`) are
explicit inputs and logs.
-/

namespace Fish

/-! ## Data model -/

/-- Modelled from the spec: the `io_mode` constants of `io.h` (the header is
not among the sources).  `io.cpp` names `IO_PIPE`, `IO_FD` and `IO_BUFFER`;
the spec reserves file-open redirections, and `io_print` has a default branch
for the remaining modes. -/
inductive io_mode_t where
  | IO_FILE
  | IO_PIPE
  | IO_FD
  | IO_BUFFER
  | IO_CLOSE
  deriving DecidableEq, Repr

/-- Modelled from the spec: the record `io_data_t` of `io.h`, with exactly the
fields `io.cpp` reads or writes.  `param1` is a union in which `old_fd`
shares storage with `pipe_fd[0]`; `out_buffer` is the accumulated byte
sequence of a buffer entry. -/
structure io_data_t where
  io_mode : io_mode_t
  fd : Int
  pipe_fd0 : Int
  pipe_fd1 : Int
  is_input : Bool
  out_buffer : List Nat
  deriving DecidableEq, Repr

/-- The member `param1.old_fd`, which overlays `param1.pipe_fd[0]`. -/
def io_data_t.old_fd (d : io_data_t) : Int := d.pipe_fd0

/-- Modelled from the spec: `out_buffer_create` of `io.h` starts the
accumulated byte sequence empty. -/
def io_data_t.out_buffer_create (d : io_data_t) : io_data_t :=
  { d with out_buffer := [] }

/-- Modelled from the spec: `out_buffer_append(ptr, count)` of `io.h` appends
the first `count` bytes found at `ptr` to the accumulated byte sequence. -/
def io_data_t.out_buffer_append (d : io_data_t) (b : List Nat) (count : Int) : io_data_t :=
  { d with out_buffer := d.out_buffer ++ b.take count.toNat }

/-- Contents of an `io_data_t` right after `new io_data_t`, before any field
is assigned.  Every field is overwritten before it is read. -/
def io_data_t.blank : io_data_t :=
  { io_mode := io_mode_t.IO_FILE, fd := 0, pipe_fd0 := 0, pipe_fd1 := 0,
    is_input := false, out_buffer := [] }

/-- An address of an `io_data_t` object (`io_data_t *`).  A possibly-NULL
pointer is an `Option Ptr`. -/
abbrev Ptr := Nat

/-- The heap of `io_data_t` objects: cell `p` holds the object at address `p`,
or `none` once it has been deleted.  Addresses are never handed out twice. -/
structure Heap where
  cells : List (Option io_data_t)
  deriving DecidableEq, Repr

/-- Dereference: `none` when `p` is not the address of a live object. -/
def Heap.get (h : Heap) (p : Ptr) : Option io_data_t :=
  (h.cells.get? p).join

/-- Modelled from the spec: the operator `new io_data_t(v)`, with the copy
constructor of `io.h` a structural copy: a fresh address holding `v`. -/
def Heap.alloc (h : Heap) (v : io_data_t) : Heap × Ptr :=
  (⟨h.cells ++ [some v]⟩, h.cells.length)

/-- Store through a pointer. -/
def Heap.set (h : Heap) (p : Ptr) (v : io_data_t) : Heap :=
  ⟨h.cells.set p (some v)⟩

/-- Modelled from the spec: the operator `delete p`, whose destructor
`~io_data_t` is declared in `io.h`.  It releases the object and closes no
descriptor: destroying a buffer entry releases each pipe end exactly once, and
`io_buffer_destroy` hands the ends to `exec_close` itself right before its
`delete`.  Deleting an address that is not live is undefined, rendered
`none`. -/
def Heap.delete (h : Heap) (p : Ptr) : Option Heap :=
  match h.get p with
  | none => none
  | some _ => some ⟨h.cells.set p none⟩

/-- A chain `io_chain_t`: the stored `io_data_t *` values, in order. -/
abbrev io_chain_t := List Ptr

/-- Every pointer of the chain addresses a live object. -/
def chain_live (h : Heap) (c : io_chain_t) : Prop :=
  ∀ p ∈ c, (h.get p).isSome = true

instance (h : Heap) (c : io_chain_t) : Decidable (chain_live h c) := by
  unfold chain_live; infer_instance

/-! ## Chain operations -/

/-- The algorithm `std::find(first, last, value)` on a vector of pointers:
the position of the first element equal to `value` (pointer comparison), or
the length when there is none. -/
def find : io_chain_t → Ptr → Nat
  | [], _ => 0
  | x :: rest, value => if x = value then 0 else find rest value + 1

/-- Function `io_remove(list, element)`, `io.cpp` lines 155-162: `find` the
element, and `erase` it when it was found. -/
def io_remove (list : io_chain_t) (element : Ptr) : io_chain_t :=
  let where_ := find list element
  if where_ ≠ list.length then list.eraseIdx where_ else list

/-- The loop of `io_duplicate` / `io_duplicate_append`: for each pointer of the
source, in order, `push_back(new io_data_t(*io))`.  Reading through a pointer
that is not live is undefined, rendered `none`. -/
def push_back_copies : Heap → io_chain_t → io_chain_t → Option (Heap × io_chain_t)
  | h, [], result => some (h, result)
  | h, io :: rest, result =>
    match h.get io with
    | none => none
    | some v =>
      let a := h.alloc v
      push_back_copies a.1 rest (result ++ [a.2])

/-- Function `io_duplicate(chain)`, `io.cpp` lines 164-174: returns the new heap and
the result chain. -/
def io_duplicate (h : Heap) (chain : io_chain_t) : Option (Heap × io_chain_t) :=
  push_back_copies h chain []

/-- Function `io_duplicate_append(src, dst)`, `io.cpp` lines 176-183, for `src` and
`dst` two different vectors: returns the new heap and the new `dst`. -/
def io_duplicate_append (h : Heap) (src dst : io_chain_t) : Option (Heap × io_chain_t) :=
  push_back_copies h src dst

/-- The loop of `io_chain_destroy`: `delete *iter` for each element. -/
def delete_all : Heap → io_chain_t → Option Heap
  | h, [] => some h
  | h, p :: rest =>
    match h.delete p with
    | none => none
    | some h1 => delete_all h1 rest

/-- Function `io_chain_destroy(chain)`, `io.cpp` lines 185-191: deletes every element,
then `chain.clear()`.  Returns the new heap and the (empty) chain. -/
def io_chain_destroy (h : Heap) (chain : io_chain_t) : Option (Heap × io_chain_t) :=
  match delete_all h chain with
  | none => none
  | some h1 => some (h1, [])

/-- The reverse scan of the const overload of `io_chain_get`, over the
elements from `rbegin()` on.  The outer `none` is a read through a pointer
that is not live; `some none` is the NULL result. -/
def io_chain_get_const_scan (h : Heap) (fd : Int) : List Ptr → Option (Option Ptr)
  | [] => some none
  | data :: rest =>
    match h.get data with
    | none => none
    | some d => if d.fd = fd then some (some data) else io_chain_get_const_scan h fd rest

/-- Function `const io_data_t *io_chain_get(const io_chain_t &src, int fd)`,
`io.cpp` lines 194-202. -/
def io_chain_get_const (h : Heap) (src : io_chain_t) (fd : Int) : Option (Option Ptr) :=
  io_chain_get_const_scan h fd src.reverse

/-- The reverse scan of the non-const overload of `io_chain_get`. -/
def io_chain_get_scan (h : Heap) (fd : Int) : List Ptr → Option (Option Ptr)
  | [] => some none
  | data :: rest =>
    match h.get data with
    | none => none
    | some d => if d.fd = fd then some (some data) else io_chain_get_scan h fd rest

/-- Function `io_data_t *io_chain_get(io_chain_t &src, int fd)`, `io.cpp` lines
204-212. -/
def io_chain_get (h : Heap) (src : io_chain_t) (fd : Int) : Option (Option Ptr) :=
  io_chain_get_scan h fd src.reverse

/-! ## Buffered capture -/

/-- The messages handed to `debug` by `io.cpp`. -/
inductive debug_msg where
  | blocking_read (fd : Int)
  | read_error (fd : Int)
  | PIPE_ERROR
  deriving DecidableEq, Repr

/-- The tags handed to `wperror` by `io.cpp`. -/
inductive wperror_tag where
  | io_buffer_read
  | pipe
  | fcntl_tag
  deriving DecidableEq, Repr

/-- One call of a diagnostics collaborator. -/
inductive Diag where
  | debug (level : Nat) (msg : debug_msg)
  | wperror (tag : wperror_tag)
  deriving DecidableEq, Repr

/-- What one call `read_blocked(fd, b, 4096)` leaves behind: the returned
length `l`, the contents of the array `b`, and `errno`. -/
structure read_result where
  l : Int
  b : List Nat
  errno : Int
  deriving DecidableEq, Repr

/-- The `errno` value for "operation would block". -/
def EAGAIN : Int := 11

/-- The process state `io.cpp` acts on.  `open_fds` are the descriptors opened
by `exec_pipe` and not yet closed, `closed` the arguments of the calls of
`exec_close` so far (oldest first), `read_fds` the descriptor arguments of the
calls of `read_blocked` so far, `diag` the diagnostics emitted so far. -/
structure World where
  heap : Heap
  open_fds : List Int
  closed : List Int
  read_fds : List Int
  diag : List Diag
  deriving DecidableEq, Repr

/-- Modelled from the spec: the descriptor-closing primitive `exec_close` of
`exec.cpp` (not among the sources): the call is recorded and the descriptor is
no longer open. -/
def exec_close (w : World) (fd : Int) : World :=
  { w with closed := w.closed ++ [fd], open_fds := w.open_fds.erase fd }

/-- A call of `debug`. -/
def debug (w : World) (level : Nat) (msg : debug_msg) : World :=
  { w with diag := w.diag ++ [Diag.debug level msg] }

/-- A call of `wperror`. -/
def wperror (w : World) (tag : wperror_tag) : World :=
  { w with diag := w.diag ++ [Diag.wperror tag] }

/-- The `while(1)` loop of `io_buffer_read`, `io.cpp` lines 64-96.  `reads n`
is what the `n`-th call of `read_blocked` in the life of the process returns.
The loop has no bound of its own, so the embedding counts iterations down from
`fuel`; `none` is fuel running out or a read through a dead pointer. -/
def io_buffer_read_loop (reads : Nat → read_result) (d : Ptr) : Nat → World → Option World
  | 0, _ => none
  | fuel + 1, w =>
    match w.heap.get d with
    | none => none
    | some v =>
      let r := reads w.read_fds.length
      let w1 := { w with read_fds := w.read_fds ++ [v.pipe_fd0] }
      if r.l = 0 then
        some w1
      else if r.l < 0 then
        if r.errno ≠ EAGAIN then
          some (wperror (debug w1 1 (debug_msg.read_error v.pipe_fd0)) wperror_tag.io_buffer_read)
        else
          some w1
      else
        io_buffer_read_loop reads d fuel
          { w1 with heap := w1.heap.set d (v.out_buffer_append r.b r.l) }

/-- Function `io_buffer_read(d)`, `io.cpp` lines 52-98. -/
def io_buffer_read (reads : Nat → read_result) (fuel : Nat) (d : Ptr) (w : World) :
    Option World :=
  match w.heap.get d with
  | none => none
  | some v =>
    let w1 := exec_close w v.pipe_fd1
    if v.io_mode = io_mode_t.IO_BUFFER then
      io_buffer_read_loop reads d fuel (debug w1 4 (debug_msg.blocking_read v.pipe_fd0))
    else
      some w1

/-- Function `io_buffer_create(is_input)`, `io.cpp` lines 101-132.  `pipe_res` is the
outcome of `exec_pipe`: `none` for the return value -1, otherwise the two
descriptors it stored (read end first), which are open from then on;
`fcntl_res` is the value `fcntl` returns if it is called.  The result is the
new state and the returned pointer (`none` is NULL). -/
def io_buffer_create (pipe_res : Option (Int × Int)) (fcntl_res : Int) (is_input : Int)
    (w : World) : World × Option Ptr :=
  let v : io_data_t :=
    { io_data_t.blank.out_buffer_create with
      io_mode := io_mode_t.IO_BUFFER
      is_input := decide (is_input ≠ 0)
      fd := if is_input ≠ 0 then 0 else 1 }
  let a := w.heap.alloc v
  let buffer_redirect := a.2
  let w1 : World := { w with heap := a.1 }
  let failed (w2 : World) : World × Option Ptr :=
    match w2.heap.delete buffer_redirect with
    | none => (w2, none)
    | some h => ({ w2 with heap := h }, none)
  match pipe_res with
  | none =>
    failed (wperror (debug w1 1 debug_msg.PIPE_ERROR) wperror_tag.pipe)
  | some (rd, wr) =>
    let w2 : World :=
      { w1 with
        open_fds := w1.open_fds ++ [rd, wr]
        heap := w1.heap.set buffer_redirect { v with pipe_fd0 := rd, pipe_fd1 := wr } }
    if fcntl_res ≠ 0 then
      failed (wperror (debug w2 1 debug_msg.PIPE_ERROR) wperror_tag.fcntl_tag)
    else
      (w2, some buffer_redirect)

/-- Function `io_buffer_destroy(io_buffer)`, `io.cpp` lines 134-153. -/
def io_buffer_destroy (io_buffer : Ptr) (w : World) : Option World :=
  match w.heap.get io_buffer with
  | none => none
  | some v =>
    let w1 := if v.is_input then exec_close w v.pipe_fd1 else w
    let w2 := exec_close w1 v.pipe_fd0
    match w2.heap.delete io_buffer with
    | none => none
    | some h => some { w2 with heap := h }

/-- The empty process state. -/
def World.init : World :=
  { heap := ⟨[]⟩, open_fds := [], closed := [], read_fds := [], diag := [] }

/-! ## Sample states -/

/-- A heap with a descriptor-copy entry and a pipe entry, both for fd 1, and a
buffer entry for fd 2. -/
def heap3 : Heap :=
  ⟨[some { io_mode := io_mode_t.IO_FD, fd := 1, pipe_fd0 := 3, pipe_fd1 := 0,
           is_input := false, out_buffer := [] },
    some { io_mode := io_mode_t.IO_PIPE, fd := 1, pipe_fd0 := 5, pipe_fd1 := 6,
           is_input := false, out_buffer := [] },
    some { io_mode := io_mode_t.IO_BUFFER, fd := 2, pipe_fd0 := 7, pipe_fd1 := 8,
           is_input := false, out_buffer := [] }]⟩

/-- The `fd` field of the object at `p`, when `p` is live. -/
def entry_fd (h : Heap) (p : Ptr) : Option Int :=
  (h.get p).map (fun d => d.fd)

/-- Two objects with the same fd, mode and parameters at addresses 0 and 2,
and a different object at address 1. -/
def heap_twins : Heap :=
  ⟨[some { io_mode := io_mode_t.IO_FD, fd := 1, pipe_fd0 := 3, pipe_fd1 := 0,
           is_input := false, out_buffer := [] },
    some { io_mode := io_mode_t.IO_FD, fd := 2, pipe_fd0 := 4, pipe_fd1 := 0,
           is_input := false, out_buffer := [] },
    some { io_mode := io_mode_t.IO_FD, fd := 1, pipe_fd0 := 3, pipe_fd1 := 0,
           is_input := false, out_buffer := [] }]⟩

/-- Structural identity of two entries: same fd, mode and parameters. -/
def same_structure (h : Heap) (p q : Ptr) : Bool :=
  match h.get p, h.get q with
  | some a, some b =>
    decide (a.fd = b.fd ∧ a.io_mode = b.io_mode ∧ a.pipe_fd0 = b.pipe_fd0 ∧
      a.pipe_fd1 = b.pipe_fd1)
  | _, _ => false

/-- Removal as the specification words it: drop the first entry of the chain
that is structurally identical to the given entry, keep the chain as it is
when there is none. -/
def remove_first_structural (h : Heap) : io_chain_t → Ptr → io_chain_t
  | [], _ => []
  | x :: rest, element =>
    if same_structure h x element then rest
    else x :: remove_first_structural h rest element

/-- The bytes delivered by the `k` calls of `read_blocked` numbered `n`,
`n + 1`, ..., `n + k - 1`: for each call the first `l` bytes of its array,
concatenated in call order. -/
def drained (reads : Nat → read_result) : Nat → Nat → List Nat
  | _, 0 => []
  | n, k + 1 => (reads n).b.take (reads n).l.toNat ++ drained reads (n + 1) k

/-- A read script: the given results in order, then end of file for ever. -/
def script (rs : List read_result) (n : Nat) : read_result :=
  (rs.get? n).getD { l := 0, b := [], errno := 0 }

/-- A state holding one output-capturing buffer entry at address 0, whose
buffer already holds the byte 9. -/
def world_buf : World :=
  { World.init with
    heap := ⟨[some { io_mode := io_mode_t.IO_BUFFER, fd := 1, pipe_fd0 := 5, pipe_fd1 := 6,
                     is_input := false, out_buffer := [9] }]⟩
    open_fds := [5, 6] }

/-- The state of `world_buf` with the buffer still empty. -/
def world_buf_empty : World :=
  { World.init with
    heap := ⟨[some { io_mode := io_mode_t.IO_BUFFER, fd := 1, pipe_fd0 := 5, pipe_fd1 := 6,
                     is_input := false, out_buffer := [] }]⟩
    open_fds := [5, 6] }

/-- A read script that reports end of file on every call. -/
def eof_script : Nat → read_result :=
  script []

/-! ## Heap lemmas -/

theorem Heap.get_eq (h : Heap) (p : Ptr) : h.get p = (h.cells[p]?).join := by
  simp [Heap.get]

theorem Heap.lt_of_get_some {h : Heap} {p : Ptr} {v : io_data_t} (hp : h.get p = some v) :
    p < h.cells.length := by
  by_contra hlt
  have : h.cells[p]? = none := List.getElem?_eq_none (Nat.le_of_not_lt hlt)
  simp [Heap.get_eq, this] at hp

theorem Heap.lt_of_live {h : Heap} {p : Ptr} (hp : (h.get p).isSome = true) :
    p < h.cells.length := by
  obtain ⟨v, hv⟩ := Option.isSome_iff_exists.mp hp
  exact Heap.lt_of_get_some hv

theorem Heap.get_ge {h : Heap} {p : Ptr} (hp : h.cells.length ≤ p) : h.get p = none := by
  simp [Heap.get_eq, List.getElem?_eq_none hp]

theorem Heap.get_append_lt (cs more : List (Option io_data_t)) {p : Ptr} (hp : p < cs.length) :
    (Heap.mk (cs ++ more)).get p = (Heap.mk cs).get p := by
  simp [Heap.get_eq, List.getElem?_append_left hp]

theorem Heap.get_append_ge (cs more : List (Option io_data_t)) (i : Nat) :
    (Heap.mk (cs ++ more)).get (cs.length + i) = (more[i]?).join := by
  simp [Heap.get_eq, List.getElem?_append_right]

theorem Heap.get_delete {h h1 : Heap} {p : Ptr} (hd : h.delete p = some h1) (q : Ptr) :
    h1.get q = if q = p then none else h.get q := by
  unfold Heap.delete at hd
  cases hg : h.get p with
  | none => simp [hg] at hd
  | some v =>
    simp only [hg, Option.some.injEq] at hd
    subst hd
    have hlt := Heap.lt_of_get_some hg
    by_cases hq : q = p
    · subst hq
      simp [Heap.get_eq, List.getElem?_set, hlt]
    · have hq2 : ¬ p = q := fun e => hq e.symm
      simp [Heap.get_eq, List.getElem?_set, hq, hq2]

theorem Heap.delete_of_live {h : Heap} {p : Ptr} (hp : (h.get p).isSome = true) :
    ∃ h1, h.delete p = some h1 := by
  obtain ⟨v, hv⟩ := Option.isSome_iff_exists.mp hp
  exact ⟨⟨h.cells.set p none⟩, by simp [Heap.delete, hv]⟩

/-! ## The copying loop -/

/-- On a source chain of live pointers the copying loop succeeds: the heap
grows by one cell per source element, holding that element's value, and the
result chain grows by the new addresses, in order. -/
theorem push_back_copies_eq (src : io_chain_t) :
    ∀ (h : Heap) (result : io_chain_t), chain_live h src →
      push_back_copies h src result =
        some (⟨h.cells ++ src.map (fun p => h.get p)⟩,
              result ++ List.range' h.cells.length src.length) := by
  induction src with
  | nil => intro h result _; simp [push_back_copies]
  | cons io rest ih =>
    intro h result hl
    have hio : (h.get io).isSome = true := hl io (List.mem_cons_self _ _)
    obtain ⟨v, hv⟩ := Option.isSome_iff_exists.mp hio
    have hrest : ∀ q ∈ rest, (Heap.mk (h.cells ++ [some v])).get q = h.get q := by
      intro q hq
      exact Heap.get_append_lt h.cells [some v]
        (Heap.lt_of_live (hl q (List.mem_cons_of_mem _ hq)))
    have hl1 : chain_live (Heap.mk (h.cells ++ [some v])) rest := by
      intro q hq
      rw [hrest q hq]
      exact hl q (List.mem_cons_of_mem _ hq)
    have hmap : rest.map (fun p => (Heap.mk (h.cells ++ [some v])).get p)
        = rest.map (fun p => h.get p) :=
      List.map_congr_left hrest
    simp only [push_back_copies, hv, Heap.alloc]
    rw [ih _ _ hl1, hmap]
    simp [List.range'_succ, hv]

theorem Heap.get_copy (h : Heap) (src : io_chain_t) (i : Nat) (hi : i < src.length) :
    (Heap.mk (h.cells ++ src.map (fun p => h.get p))).get (h.cells.length + i)
      = h.get (src.get ⟨i, hi⟩) := by
  rw [Heap.get_append_ge]
  simp [List.getElem?_map, List.getElem?_eq_getElem hi]

theorem map_get_copies (h : Heap) (src : io_chain_t) :
    (List.range' h.cells.length src.length).map
        (fun p => (Heap.mk (h.cells ++ src.map (fun p => h.get p))).get p)
      = src.map (fun p => h.get p) := by
  apply List.ext_getElem
  · simp
  · intro i h1 h2
    have hi : i < src.length := by simpa using h2
    simp only [List.getElem_map, List.getElem_range', Nat.one_mul]
    exact Heap.get_copy h src i hi

theorem mem_range_fresh {h : Heap} {n : Nat} {p : Ptr}
    (hp : p ∈ List.range' h.cells.length n) : h.get p = none := by
  rw [List.mem_range'_1] at hp
  exact Heap.get_ge hp.1

/-! ## Claims about the chain operations -/

/-- C4: on a source chain of live entries, `io_duplicate_append(src, dst)`
returns with `dst` made of its previous entries, unchanged and in their
previous order, followed by one newly allocated field-for-field copy of each
entry of `src` in the order of `src`; the new length is the old length of
`dst` plus the length of `src`, and every object that was live before,
the entries of `src` among them, is unchanged. -/
theorem io_duplicate_append_base_plus_additions (h : Heap) (src dst : io_chain_t)
    (hsrc : chain_live h src) :
    ∃ h1 dst1, io_duplicate_append h src dst = some (h1, dst1) ∧
      dst1.length = dst.length + src.length ∧
      dst1.take dst.length = dst ∧
      (dst1.drop dst.length).map (fun p => h1.get p) = src.map (fun p => h.get p) ∧
      (∀ p ∈ dst1.drop dst.length, h.get p = none) ∧
      (∀ p, (h.get p).isSome = true → h1.get p = h.get p) := by
  refine ⟨_, _, push_back_copies_eq src h dst hsrc, ?_, ?_, ?_, ?_, ?_⟩
  · simp
  · simp
  · simpa using map_get_copies h src
  · intro p hp
    simp only [List.drop_left] at hp
    exact mem_range_fresh hp
  · intro p hp
    exact Heap.get_append_lt h.cells _ (Heap.lt_of_live hp)

/-- C4 at the chains `src = [0, 1]` and `dst = [2]` of `heap3`. -/
theorem io_duplicate_append_base_plus_additions_witness :
    chain_live heap3 [0, 1] ∧
    ∃ h1 dst1, io_duplicate_append heap3 [0, 1] [2] = some (h1, dst1) ∧
      dst1.length = [2].length + [0, 1].length ∧
      dst1.take [2].length = [2] ∧
      (dst1.drop [2].length).map (fun p => h1.get p) = [0, 1].map (fun p => heap3.get p) ∧
      (∀ p ∈ dst1.drop [2].length, heap3.get p = none) ∧
      (∀ p, (heap3.get p).isSome = true → h1.get p = heap3.get p) :=
  ⟨by decide, io_duplicate_append_base_plus_additions heap3 [0, 1] [2] (by decide)⟩

theorem io_chain_get_const_scan_eq (h : Heap) (fd : Int) (l : List Ptr) :
    io_chain_get_const_scan h fd l = io_chain_get_scan h fd l := by
  induction l with
  | nil => rfl
  | cons data rest ih => simp only [io_chain_get_const_scan, io_chain_get_scan, ih]

theorem io_chain_get_const_eq (h : Heap) (src : io_chain_t) (fd : Int) :
    io_chain_get_const h src fd = io_chain_get h src fd :=
  io_chain_get_const_scan_eq h fd src.reverse

theorem io_chain_get_snoc_hit {h : Heap} {c : io_chain_t} {x : Ptr} {f : Int}
    (hx : entry_fd h x = some f) : io_chain_get h (c ++ [x]) f = some (some x) := by
  unfold entry_fd at hx
  cases hg : h.get x with
  | none => simp [hg] at hx
  | some d =>
    simp only [hg, Option.map_some', Option.some.injEq] at hx
    simp [io_chain_get, io_chain_get_scan, hg, hx]

theorem io_chain_get_snoc_miss {h : Heap} {c : io_chain_t} {x : Ptr} {f : Int}
    (hlive : (h.get x).isSome = true) (hx : entry_fd h x ≠ some f) :
    io_chain_get h (c ++ [x]) f = io_chain_get h c f := by
  unfold entry_fd at hx
  obtain ⟨d, hg⟩ := Option.isSome_iff_exists.mp hlive
  simp only [hg, Option.map_some', ne_eq, Option.some.injEq] at hx
  simp [io_chain_get, io_chain_get_scan, hg, hx]

theorem io_chain_get_char (h : Heap) (f : Int) (ch : io_chain_t) (hl : chain_live h ch) :
    ∃ r, io_chain_get h ch f = some r ∧
      (r = none ↔ ∀ p ∈ ch, entry_fd h p ≠ some f) ∧
      (∀ p, r = some p → ∃ i : Nat, ch[i]? = some p ∧ entry_fd h p = some f ∧
        ∀ (j : Nat) (q : Ptr), i < j → (ch[j]?) = some q → entry_fd h q ≠ some f) := by
  induction ch using List.reverseRecOn with
  | nil => exact ⟨none, rfl, by simp, by simp⟩
  | append_singleton c x ih =>
    have hlx : (h.get x).isSome = true := hl x (by simp)
    have hlc : chain_live h c := fun p hp => hl p (by simp [hp])
    by_cases hx : entry_fd h x = some f
    · refine ⟨some x, io_chain_get_snoc_hit hx, ?_, ?_⟩
      · constructor
        · intro e; cases e
        · intro hall; exact absurd hx (hall x (by simp))
      · intro p hp
        cases hp
        refine ⟨c.length, by simp, hx, ?_⟩
        intro j q hij hq
        have : (c ++ [x])[j]? = none := List.getElem?_eq_none (by simp; omega)
        rw [this] at hq; cases hq
    · obtain ⟨r, hr, hnone, hsome⟩ := ih hlc
      refine ⟨r, by rw [io_chain_get_snoc_miss hlx hx]; exact hr, ?_, ?_⟩
      · rw [hnone]
        constructor
        · intro hall p hp
          rcases List.mem_append.mp hp with hpc | hpx
          · exact hall p hpc
          · rw [List.mem_singleton] at hpx; subst hpx; exact hx
        · intro hall p hp
          exact hall p (by simp [hp])
      · intro p hp
        obtain ⟨i, hi, hfd, hhigh⟩ := hsome p hp
        have hilt : i < c.length := (List.getElem?_eq_some.mp hi).1
        refine ⟨i, by rw [List.getElem?_append_left hilt]; exact hi, hfd, ?_⟩
        intro j q hij hq
        by_cases hj : j < c.length
        · rw [List.getElem?_append_left hj] at hq
          exact hhigh j q hij hq
        · rw [List.getElem?_append_right (Nat.le_of_not_lt hj)] at hq
          have hj0 : j - c.length = 0 := by
            by_contra hne
            have : ([x] : List Ptr)[j - c.length]? = none :=
              List.getElem?_eq_none (by simp; omega)
            rw [this] at hq; cases hq
          rw [hj0] at hq
          simp only [List.getElem?_cons_zero, Option.some.injEq] at hq
          subst hq
          exact hx

/-- C1: on a chain of live entries, both overloads of `io_chain_get(C, f)`
return the same pointer `r`; `r` is NULL exactly when no entry of `C` has fd
`f`, and otherwise `r` is the entry at the highest index of `C` whose `fd`
field equals `f`. -/
theorem io_chain_get_last_match (h : Heap) (C : io_chain_t) (f : Int)
    (hl : chain_live h C) :
    ∃ r, io_chain_get h C f = some r ∧ io_chain_get_const h C f = some r ∧
      (r = none ↔ ∀ p ∈ C, entry_fd h p ≠ some f) ∧
      (∀ p, r = some p → ∃ i : Nat, C[i]? = some p ∧ entry_fd h p = some f ∧
        ∀ (j : Nat) (q : Ptr), i < j → (C[j]?) = some q → entry_fd h q ≠ some f) := by
  obtain ⟨r, hr, hnone, hsome⟩ := io_chain_get_char h f C hl
  exact ⟨r, hr, by rw [io_chain_get_const_eq]; exact hr, hnone, hsome⟩

/-- C1 at the chain of the specification's scenario: a descriptor copy for fd 1
followed by a pipe for fd 1; the lookup of fd 1 returns the pipe entry. -/
theorem io_chain_get_last_match_witness :
    chain_live heap3 [0, 1] ∧
    (io_chain_get heap3 [0, 1] 1 = some (some 1) ∧
     io_chain_get_const heap3 [0, 1] 1 = some (some 1) ∧
     (heap3.get 1).map (fun d => d.io_mode) = some io_mode_t.IO_PIPE) ∧
    ∃ r, io_chain_get heap3 [0, 1] 1 = some r ∧ io_chain_get_const heap3 [0, 1] 1 = some r ∧
      (r = none ↔ ∀ p ∈ [0, 1], entry_fd heap3 p ≠ some 1) ∧
      (∀ p, r = some p → ∃ i : Nat, (([0, 1] : io_chain_t)[i]?) = some p ∧ entry_fd heap3 p = some 1 ∧
        ∀ (j : Nat) (q : Ptr), i < j → (([0, 1] : io_chain_t)[j]?) = some q → entry_fd heap3 q ≠ some 1) :=
  ⟨by decide, by decide, io_chain_get_last_match heap3 [0, 1] 1 (by decide)⟩

theorem io_remove_cons_self (e : Ptr) (rest : io_chain_t) :
    io_remove (e :: rest) e = rest := by
  simp [io_remove, find]

theorem io_remove_cons_ne {x e : Ptr} (hne : x ≠ e) (rest : io_chain_t) :
    io_remove (x :: rest) e = x :: io_remove rest e := by
  by_cases hf : find rest e = rest.length
  · simp [io_remove, find, hne, hf]
  · simp [io_remove, find, hne, hf]

theorem io_remove_absent (list : io_chain_t) (e : Ptr) (habs : e ∉ list) :
    io_remove list e = list := by
  induction list with
  | nil => rfl
  | cons x rest ih =>
    have hne : x ≠ e := fun hxe => habs (by simp [hxe])
    have hrest : e ∉ rest := fun hm => habs (List.mem_cons_of_mem _ hm)
    rw [io_remove_cons_ne hne, ih hrest]

theorem io_remove_first (pre post : io_chain_t) (e : Ptr) (hpre : e ∉ pre) :
    io_remove (pre ++ e :: post) e = pre ++ post := by
  induction pre with
  | nil => exact io_remove_cons_self e post
  | cons x rest ih =>
    have hne : x ≠ e := fun hxe => hpre (by simp [hxe])
    have hrest : e ∉ rest := fun hm => hpre (List.mem_cons_of_mem _ hm)
    rw [List.cons_append, io_remove_cons_ne hne, ih hrest, List.cons_append]

/-- C5, as the code has it: `io_remove(list, element)` compares pointers.
When the pointer `element` is not stored in the chain the chain is returned
as it is (whatever the contents of the objects); otherwise exactly the first
occurrence of that pointer is taken out and all other entries keep their
relative order. -/
theorem io_remove_by_identity (list : io_chain_t) (element : Ptr) :
    (element ∉ list → io_remove list element = list) ∧
    (∀ pre post : io_chain_t, list = pre ++ element :: post → element ∉ pre →
      io_remove list element = pre ++ post) := by
  refine ⟨io_remove_absent list element, ?_⟩
  intro pre post hlist hpre
  rw [hlist]
  exact io_remove_first pre post element hpre

/-- C5 at the chain `[0, 1, 2, 1]` and the pointer 1. -/
theorem io_remove_by_identity_witness :
    (io_remove [0, 1, 2, 1] 1 = [0, 2, 1] ∧ io_remove [0, 2] 1 = [0, 2]) ∧
    ((1 ∉ ([0, 1, 2, 1] : io_chain_t) → io_remove [0, 1, 2, 1] 1 = [0, 1, 2, 1]) ∧
    (∀ pre post : io_chain_t, [0, 1, 2, 1] = pre ++ 1 :: post → 1 ∉ pre →
      io_remove [0, 1, 2, 1] 1 = pre ++ post)) :=
  ⟨by decide, io_remove_by_identity [0, 1, 2, 1] 1⟩

/-- C5 as stated fails.  In `heap_twins` the objects at addresses 0 and 2 are
structurally identical.  Removing the pointer 2 from the chain `[0, 1, 2]`
takes out the last entry, not the first structurally identical one, and the
remaining chain holds other values in another order; removing the pointer 2
from the chain `[0, 1]`, which does not store it, leaves the chain alone
although its first entry is structurally identical to the object at 2. -/
theorem io_remove_not_structural :
    same_structure heap_twins 0 2 = true ∧
    io_remove [0, 1, 2] 2 = [0, 1] ∧
    remove_first_structural heap_twins [0, 1, 2] 2 = [1, 2] ∧
    (io_remove [0, 1, 2] 2).map (fun p => heap_twins.get p)
      ≠ (remove_first_structural heap_twins [0, 1, 2] 2).map (fun p => heap_twins.get p) ∧
    io_remove [0, 1] 2 = [0, 1] ∧
    remove_first_structural heap_twins [0, 1] 2 = [1] := by
  decide

theorem delete_all_spec (chain : io_chain_t) :
    ∀ h : Heap, chain_live h chain → chain.Nodup →
      ∃ h2, delete_all h chain = some h2 ∧
        ∀ q, h2.get q = if q ∈ chain then none else h.get q := by
  induction chain with
  | nil => intro h _ _; exact ⟨h, rfl, by simp⟩
  | cons p rest ih =>
    intro h hl hn
    obtain ⟨h1, hd⟩ := Heap.delete_of_live (hl p (List.mem_cons_self _ _))
    have hp : p ∉ rest := (List.nodup_cons.mp hn).1
    have hl1 : chain_live h1 rest := by
      intro q hq
      have hqp : q ≠ p := fun e => hp (e ▸ hq)
      rw [Heap.get_delete hd q, if_neg hqp]
      exact hl q (List.mem_cons_of_mem _ hq)
    obtain ⟨h2, h2eq, h2get⟩ := ih h1 hl1 (List.nodup_cons.mp hn).2
    refine ⟨h2, by simp [delete_all, hd, h2eq], ?_⟩
    intro q
    rw [h2get q, Heap.get_delete hd q]
    by_cases hqp : q = p
    · subst hqp; simp
    · by_cases hqr : q ∈ rest
      · simp [hqr]
      · simp [hqr, hqp]

/-- C3: for a chain `C` of distinct live entries, `io_duplicate(C)` returns a
chain of the same length whose entries are newly allocated objects (not live
before the call, none of them an entry of `C`) holding, position by position,
the values of the entries of `C`; and `io_chain_destroy(C)` then succeeds,
empties `C`, deletes every entry of `C`, and leaves every entry of the clone
live with the clone's length, order and per-entry values unchanged. -/
theorem io_duplicate_independent_lifetime (h : Heap) (C : io_chain_t)
    (hl : chain_live h C) (hn : C.Nodup) :
    ∃ h1 C1, io_duplicate h C = some (h1, C1) ∧
      C1.length = C.length ∧
      (∀ p ∈ C1, h.get p = none ∧ p ∉ C) ∧
      C1.map (fun p => h1.get p) = C.map (fun p => h.get p) ∧
      ∃ h2, io_chain_destroy h1 C = some (h2, []) ∧
        (∀ p ∈ C, h2.get p = none) ∧
        (∀ p ∈ C1, (h2.get p).isSome = true ∧ h2.get p = h1.get p) ∧
        C1.map (fun p => h2.get p) = C.map (fun p => h.get p) := by
  have hdup := push_back_copies_eq C h [] hl
  have hfresh : ∀ p ∈ List.range' h.cells.length C.length, h.get p = none ∧ p ∉ C := by
    intro p hp
    have hnone : h.get p = none := mem_range_fresh hp
    refine ⟨hnone, fun hpc => ?_⟩
    have := hl p hpc
    rw [hnone] at this
    cases this
  have hl1 : chain_live (Heap.mk (h.cells ++ C.map (fun p => h.get p))) C := by
    intro p hp
    rw [Heap.get_append_lt h.cells _ (Heap.lt_of_live (hl p hp))]
    exact hl p hp
  obtain ⟨h2, hdel, hget⟩ := delete_all_spec C _ hl1 hn
  have hkeep : ∀ p ∈ List.range' h.cells.length C.length,
      h2.get p = (Heap.mk (h.cells ++ C.map (fun p => h.get p))).get p := by
    intro p hp
    rw [hget p, if_neg (hfresh p hp).2]
  have hmap2 : (List.range' h.cells.length C.length).map (fun p => h2.get p)
      = C.map (fun p => h.get p) := by
    rw [List.map_congr_left hkeep]
    exact map_get_copies h C
  refine ⟨_, _, hdup, by simp, by simpa using hfresh, by simpa using map_get_copies h C,
    h2, by simp [io_chain_destroy, hdel], ?_, ?_, by simpa using hmap2⟩
  · intro p hp
    rw [hget p, if_pos hp]
  · intro p hp
    simp only [List.nil_append] at hp
    refine ⟨?_, hkeep p hp⟩
    have hmem : h2.get p ∈ (List.range' h.cells.length C.length).map (fun p => h2.get p) :=
      List.mem_map_of_mem _ hp
    rw [hmap2] at hmem
    obtain ⟨q, hq, hqe⟩ := List.mem_map.mp hmem
    rw [← hqe]
    exact hl q hq

/-- C3 at the chain `[0, 1]` of `heap3`. -/
theorem io_duplicate_independent_lifetime_witness :
    (chain_live heap3 [0, 1] ∧ ([0, 1] : io_chain_t).Nodup) ∧
    ∃ h1 C1, io_duplicate heap3 [0, 1] = some (h1, C1) ∧
      C1.length = ([0, 1] : io_chain_t).length ∧
      (∀ p ∈ C1, heap3.get p = none ∧ p ∉ ([0, 1] : io_chain_t)) ∧
      C1.map (fun p => h1.get p) = [0, 1].map (fun p => heap3.get p) ∧
      ∃ h2, io_chain_destroy h1 [0, 1] = some (h2, []) ∧
        (∀ p ∈ ([0, 1] : io_chain_t), h2.get p = none) ∧
        (∀ p ∈ C1, (h2.get p).isSome = true ∧ h2.get p = h1.get p) ∧
        C1.map (fun p => h2.get p) = [0, 1].map (fun p => heap3.get p) :=
  ⟨by decide, io_duplicate_independent_lifetime heap3 [0, 1] (by decide) (by decide)⟩

theorem io_chain_get_of_highest {h : Heap} {ch : io_chain_t} {f : Int}
    (hl : chain_live h ch) {i : Nat} {p : Ptr} (hi : ch[i]? = some p)
    (hfd : entry_fd h p = some f)
    (hhigh : ∀ (j : Nat) (q : Ptr), i < j → (ch[j]?) = some q → entry_fd h q ≠ some f) :
    io_chain_get h ch f = some (some p) := by
  obtain ⟨r, hr, hnone, hsome⟩ := io_chain_get_char h f ch hl
  cases r with
  | none =>
    have hmem : p ∈ ch := by
      obtain ⟨hlt, heq⟩ := List.getElem?_eq_some.mp hi
      rw [← heq]
      exact List.getElem_mem hlt
    exact absurd hfd ((hnone.mp rfl) p hmem)
  | some p0 =>
    obtain ⟨i0, hi0, hfd0, hhigh0⟩ := hsome p0 rfl
    rcases Nat.lt_trichotomy i i0 with hlt | heq | hgt
    · exact absurd hfd0 (hhigh i0 p0 hlt hi0)
    · subst heq
      rw [hi] at hi0
      cases hi0
      exact hr
    · exact absurd hfd (hhigh0 i p hgt hi)

theorem io_chain_get_of_no_match {h : Heap} {ch : io_chain_t} {f : Int}
    (hl : chain_live h ch) (hno : ∀ q ∈ ch, entry_fd h q ≠ some f) :
    io_chain_get h ch f = some none := by
  obtain ⟨r, hr, hnone, -⟩ := io_chain_get_char h f ch hl
  rw [hr, hnone.mpr hno]

theorem exists_highest_match {h : Heap} {ch : io_chain_t} {f : Int}
    (hl : chain_live h ch) (hex : ∃ q ∈ ch, entry_fd h q = some f) :
    ∃ (i : Nat) (p : Ptr), ch[i]? = some p ∧ entry_fd h p = some f ∧
      (∀ (j : Nat) (q : Ptr), i < j → (ch[j]?) = some q → entry_fd h q ≠ some f) ∧
      io_chain_get h ch f = some (some p) := by
  obtain ⟨r, hr, hnone, hsome⟩ := io_chain_get_char h f ch hl
  cases r with
  | none =>
    obtain ⟨q, hq, hqf⟩ := hex
    exact absurd hqf ((hnone.mp rfl) q hq)
  | some p =>
    obtain ⟨i, hi, hfd, hhigh⟩ := hsome p rfl
    exact ⟨i, p, hi, hfd, hhigh, hr⟩

theorem copies_index (src dst : io_chain_t) (n j : Nat) (q : Nat)
    (hq : (dst ++ List.range' n src.length)[j]? = some q) :
    (j < dst.length ∧ dst[j]? = some q) ∨
    ∃ i, j = dst.length + i ∧ i < src.length ∧ q = n + i := by
  by_cases hj : j < dst.length
  · left
    rw [List.getElem?_append_left hj] at hq
    exact ⟨hj, hq⟩
  · right
    rw [List.getElem?_append_right (Nat.le_of_not_lt hj)] at hq
    obtain ⟨hlt, heq⟩ := List.getElem?_eq_some.mp hq
    rw [List.getElem_range'] at heq
    rw [List.length_range'] at hlt
    have hq2 : q = n + (j - dst.length) := by rw [← heq, Nat.one_mul]
    exact ⟨j - dst.length, (Nat.add_sub_cancel' (Nat.le_of_not_lt hj)).symm, hlt, hq2⟩

theorem copies_getElem (src dst : io_chain_t) (n i : Nat) (hi : i < src.length) :
    (dst ++ List.range' n src.length)[dst.length + i]? = some (n + i) := by
  rw [List.getElem?_append_right (Nat.le_add_right _ _)]
  simp [List.getElem?_range', hi]

theorem entry_fd_copy (h : Heap) (src : io_chain_t) (i : Nat) (p : Ptr)
    (hi : src[i]? = some p) :
    entry_fd (Heap.mk (h.cells ++ src.map (fun p => h.get p))) (h.cells.length + i)
      = entry_fd h p ∧
    (Heap.mk (h.cells ++ src.map (fun p => h.get p))).get (h.cells.length + i) = h.get p := by
  obtain ⟨hlt, heq⟩ := List.getElem?_eq_some.mp hi
  have hget := Heap.get_copy h src i hlt
  rw [List.get_eq_getElem, heq] at hget
  exact ⟨by simp only [entry_fd, hget], hget⟩

theorem entry_fd_old (h : Heap) (more : List (Option io_data_t)) (q : Ptr)
    (hq : (h.get q).isSome = true) :
    entry_fd (Heap.mk (h.cells ++ more)) q = entry_fd h q ∧
    (Heap.mk (h.cells ++ more)).get q = h.get q := by
  have hget : (Heap.mk (h.cells ++ more)).get q = h.get q :=
    Heap.get_append_lt h.cells more (Heap.lt_of_live hq)
  exact ⟨by simp only [entry_fd, hget], hget⟩

theorem chain_live_copies (h : Heap) (src dst : io_chain_t)
    (hsrc : chain_live h src) (hdst : chain_live h dst) :
    chain_live (Heap.mk (h.cells ++ src.map (fun p => h.get p)))
      (dst ++ List.range' h.cells.length src.length) := by
  intro q hq
  rcases List.mem_append.mp hq with hqd | hqn
  · rw [(entry_fd_old h _ q (hdst q hqd)).2]
    exact hdst q hqd
  · rw [List.mem_range'_1] at hqn
    have hqn1 : h.cells.length ≤ q := hqn.1
    have hqn2 : q < h.cells.length + src.length := hqn.2
    obtain ⟨i, rfl⟩ : ∃ i : Nat, q = h.cells.length + i :=
      ⟨q - h.cells.length, (Nat.add_sub_cancel' hqn1).symm⟩
    have hi : i < src.length := Nat.lt_of_add_lt_add_left hqn2
    rw [(entry_fd_copy h src i src[i] (List.getElem?_eq_getElem hi)).2]
    exact hsrc _ (List.getElem_mem hi)

/-- Lookup after the copying loop when `src` has an entry for `f`: the result
is the copy of the highest-index such entry of `src`. -/
theorem io_chain_get_copies_hit (h : Heap) (src dst : io_chain_t) (f : Int)
    (hsrc : chain_live h src) (hdst : chain_live h dst)
    (i : Nat) (p : Ptr) (hi : src[i]? = some p) (hfd : entry_fd h p = some f)
    (hhigh : ∀ (j : Nat) (q : Ptr), i < j → (src[j]?) = some q → entry_fd h q ≠ some f) :
    io_chain_get (Heap.mk (h.cells ++ src.map (fun p => h.get p)))
      (dst ++ List.range' h.cells.length src.length) f
      = some (some (h.cells.length + i)) := by
  have hlt : i < src.length := (List.getElem?_eq_some.mp hi).1
  apply io_chain_get_of_highest (chain_live_copies h src dst hsrc hdst)
    (copies_getElem src dst h.cells.length i hlt)
  · rw [(entry_fd_copy h src i p hi).1]
    exact hfd
  · intro j q hij hq
    rcases copies_index src dst h.cells.length j q hq with ⟨hj, -⟩ | ⟨i1, hj, hi1, hq1⟩
    · omega
    · subst hq1
      rw [(entry_fd_copy h src i1 src[i1] (List.getElem?_eq_getElem hi1)).1]
      exact hhigh i1 src[i1] (by omega) (List.getElem?_eq_getElem hi1)

/-- Lookup after the copying loop when `src` has no entry for `f`: the result
is the lookup in `dst` before the loop. -/
theorem io_chain_get_copies_miss (h : Heap) (src dst : io_chain_t) (f : Int)
    (hsrc : chain_live h src) (hdst : chain_live h dst)
    (hno : ∀ q ∈ src, entry_fd h q ≠ some f) :
    io_chain_get (Heap.mk (h.cells ++ src.map (fun p => h.get p)))
      (dst ++ List.range' h.cells.length src.length) f
      = io_chain_get h dst f := by
  have hnew : ∀ (j : Nat) (q : Ptr), dst.length ≤ j →
      ((dst ++ List.range' h.cells.length src.length)[j]?) = some q →
      entry_fd (Heap.mk (h.cells ++ src.map (fun p => h.get p))) q ≠ some f := by
    intro j q hj hq
    rcases copies_index src dst h.cells.length j q hq with ⟨hj1, -⟩ | ⟨i1, -, hi1, hq1⟩
    · omega
    · subst hq1
      rw [(entry_fd_copy h src i1 src[i1] (List.getElem?_eq_getElem hi1)).1]
      exact hno _ (List.getElem_mem hi1)
  obtain ⟨r, hr, hnone, hsome⟩ := io_chain_get_char h f dst hdst
  rw [hr]
  cases r with
  | none =>
    apply io_chain_get_of_no_match (chain_live_copies h src dst hsrc hdst)
    intro q hq
    obtain ⟨j, hjlt, hjq⟩ := List.mem_iff_getElem.mp hq
    have hjq2 : (dst ++ List.range' h.cells.length src.length)[j]? = some q := by
      rw [List.getElem?_eq_getElem hjlt, hjq]
    rcases copies_index src dst h.cells.length j q hjq2 with ⟨hj1, hd⟩ | ⟨i1, hj1, -, -⟩
    · have hqd : q ∈ dst := by
        obtain ⟨hlt, heq⟩ := List.getElem?_eq_some.mp hd
        rw [← heq]
        exact List.getElem_mem hlt
      rw [(entry_fd_old h _ q (hdst q hqd)).1]
      exact (hnone.mp rfl) q hqd
    · exact hnew j q (by omega) hjq2
  | some p =>
    obtain ⟨j, hj, hfd, hhigh⟩ := hsome p rfl
    have hjlt : j < dst.length := (List.getElem?_eq_some.mp hj).1
    have hpd : p ∈ dst := by
      obtain ⟨hlt, heq⟩ := List.getElem?_eq_some.mp hj
      rw [← heq]
      exact List.getElem_mem hlt
    apply io_chain_get_of_highest (chain_live_copies h src dst hsrc hdst)
      (by rw [List.getElem?_append_left hjlt]; exact hj)
    · rw [(entry_fd_old h _ p (hdst p hpd)).1]
      exact hfd
    · intro j1 q hjj1 hq
      rcases copies_index src dst h.cells.length j1 q hq with ⟨hj1, hd⟩ | ⟨i1, hj1, -, -⟩
      · have hqd : q ∈ dst := by
          obtain ⟨hlt, heq⟩ := List.getElem?_eq_some.mp hd
          rw [← heq]
          exact List.getElem_mem hlt
        rw [(entry_fd_old h _ q (hdst q hqd)).1]
        exact hhigh j1 q hjj1 hd
      · exact hnew j1 q (by omega) hq

/-- C10: for chains `src` and `dst` of live entries and every fd `f`,
`io_duplicate_append(src, dst)` returns, and in the new `dst`: when `src` has
an entry for `f`, `io_chain_get(dst, f)` is the newly allocated copy of the
entry `p` that `io_chain_get(src, f)` returns, the highest-index entry of
`src` with fd `f` (the copy sits in the appended part at the position `p` has
in `src` and holds the value of `p`), so the appended entries take precedence;
when `src` has no entry for `f`, `io_chain_get(dst, f)` is the entry it
returned on `dst` before the call, the highest-index entry of the old `dst`
with fd `f`, unchanged, or NULL when the old `dst` has none.  For
`io_duplicate(C)` the lookup of `f` in the clone is the copy of
`io_chain_get(C, f)` when `C` has an entry for `f`, and it is NULL exactly
when `C` has none, which is exactly when `io_chain_get(C, f)` is NULL. -/
theorem io_chain_get_after_duplicate_append (h : Heap) (src dst : io_chain_t) (f : Int)
    (hsrc : chain_live h src) (hdst : chain_live h dst) :
    (∃ h1 dst1, io_duplicate_append h src dst = some (h1, dst1) ∧
      ((∃ q ∈ src, entry_fd h q = some f) →
        ∃ (i : Nat) (p p1 : Ptr), src[i]? = some p ∧ entry_fd h p = some f ∧
          (∀ (j : Nat) (q : Ptr), i < j → (src[j]?) = some q → entry_fd h q ≠ some f) ∧
          io_chain_get h src f = some (some p) ∧
          dst1[dst.length + i]? = some p1 ∧ h.get p1 = none ∧ h1.get p1 = h.get p ∧
          io_chain_get h1 dst1 f = some (some p1)) ∧
      ((∀ q ∈ src, entry_fd h q ≠ some f) →
        ∃ r, io_chain_get h dst f = some r ∧ io_chain_get h1 dst1 f = some r ∧
          (r = none ↔ ∀ q ∈ dst, entry_fd h q ≠ some f) ∧
          (∀ p, r = some p → ∃ j : Nat, dst[j]? = some p ∧ dst1[j]? = some p ∧
            entry_fd h p = some f ∧ h1.get p = h.get p ∧
            ∀ (j1 : Nat) (q : Ptr), j < j1 → (dst[j1]?) = some q →
              entry_fd h q ≠ some f))) ∧
    (∃ h2 C2, io_duplicate h src = some (h2, C2) ∧
      ((∃ q ∈ src, entry_fd h q = some f) →
        ∃ (i : Nat) (p p2 : Ptr), src[i]? = some p ∧ entry_fd h p = some f ∧
          (∀ (j : Nat) (q : Ptr), i < j → (src[j]?) = some q → entry_fd h q ≠ some f) ∧
          io_chain_get h src f = some (some p) ∧
          C2[i]? = some p2 ∧ h.get p2 = none ∧ h2.get p2 = h.get p ∧
          io_chain_get h2 C2 f = some (some p2)) ∧
      (io_chain_get h2 C2 f = some none ↔ ∀ q ∈ src, entry_fd h q ≠ some f) ∧
      (io_chain_get h2 C2 f = some none ↔ io_chain_get h src f = some none)) := by
  have hit : ∀ dst0 : io_chain_t, chain_live h dst0 →
      (∃ q ∈ src, entry_fd h q = some f) →
      ∃ (i : Nat) (p p1 : Ptr), src[i]? = some p ∧ entry_fd h p = some f ∧
        (∀ (j : Nat) (q : Ptr), i < j → (src[j]?) = some q → entry_fd h q ≠ some f) ∧
        io_chain_get h src f = some (some p) ∧
        (dst0 ++ List.range' h.cells.length src.length)[dst0.length + i]? = some p1 ∧
        h.get p1 = none ∧
        (Heap.mk (h.cells ++ src.map (fun p => h.get p))).get p1 = h.get p ∧
        io_chain_get (Heap.mk (h.cells ++ src.map (fun p => h.get p)))
          (dst0 ++ List.range' h.cells.length src.length) f = some (some p1) := by
    intro dst0 hdst0 hex
    obtain ⟨i, p, hi, hfd, hhigh, hget⟩ := exists_highest_match hsrc hex
    have hlt : i < src.length := (List.getElem?_eq_some.mp hi).1
    exact ⟨i, p, h.cells.length + i, hi, hfd, hhigh, hget,
      copies_getElem src dst0 h.cells.length i hlt,
      Heap.get_ge (Nat.le_add_right _ _),
      (entry_fd_copy h src i p hi).2,
      io_chain_get_copies_hit h src dst0 f hsrc hdst0 i p hi hfd hhigh⟩
  have hnil : chain_live h [] := by intro p hp; cases hp
  constructor
  · refine ⟨_, _, push_back_copies_eq src h dst hsrc, hit dst hdst, ?_⟩
    intro hno
    obtain ⟨r, hr, hnone, hsome⟩ := io_chain_get_char h f dst hdst
    refine ⟨r, hr, ?_, hnone, ?_⟩
    · rw [io_chain_get_copies_miss h src dst f hsrc hdst hno]
      exact hr
    · intro p hp
      obtain ⟨j, hj, hfd, hhigh⟩ := hsome p hp
      have hjlt : j < dst.length := (List.getElem?_eq_some.mp hj).1
      have hpd : p ∈ dst := by
        obtain ⟨hlt, heq⟩ := List.getElem?_eq_some.mp hj
        rw [← heq]
        exact List.getElem_mem hlt
      exact ⟨j, hj, by rw [List.getElem?_append_left hjlt]; exact hj, hfd,
        (entry_fd_old h _ p (hdst p hpd)).2, hhigh⟩
  · have hall : io_chain_get (Heap.mk (h.cells ++ src.map (fun p => h.get p)))
          ([] ++ List.range' h.cells.length src.length) f = some none ↔
        ∀ q ∈ src, entry_fd h q ≠ some f := by
      constructor
      · intro hnone q hq hqf
        obtain ⟨i, p, p1, -, -, -, -, -, -, -, hget⟩ := hit [] hnil ⟨q, hq, hqf⟩
        rw [hget] at hnone
        cases hnone
      · intro hno
        rw [io_chain_get_copies_miss h src [] f hsrc hnil hno]
        rfl
    refine ⟨_, _, push_back_copies_eq src h [] hsrc, ?_, hall, ?_⟩
    · intro hex
      obtain ⟨i, p, p1, hi, hfd, hhigh, hget, hpos, hnew, hval, hres⟩ := hit [] hnil hex
      exact ⟨i, p, p1, hi, hfd, hhigh, hget, by simpa using hpos, hnew, hval, hres⟩
    · rw [hall]
      constructor
      · intro hno
        exact io_chain_get_of_no_match hsrc hno
      · intro hnone q hq hqf
        obtain ⟨i, p, -, -, -, hget⟩ := exists_highest_match hsrc ⟨q, hq, hqf⟩
        rw [hget] at hnone
        cases hnone

/-- C10 at `src = [0, 1]`, `dst = [2, 0]` of `heap3`: for fd 1 the lookup in
the new `dst = [2, 0, 3, 4]` is the entry 4, the copy of the pipe entry 1 that
the lookup in `src` returns, not the older entry 0 of `dst`; for fd 2, which
`src` does not redirect, it is still the entry 2 of the old `dst`; for fd 7 it
is NULL.  In the clone `[3, 4]` of `src` the lookup of fd 1 is 4 and the
lookup of fd 2 is NULL. -/
theorem io_chain_get_after_duplicate_append_witness :
    (chain_live heap3 [0, 1] ∧ chain_live heap3 [2, 0] ∧
      (∃ q ∈ ([0, 1] : io_chain_t), entry_fd heap3 q = some 1)) ∧
    ((io_duplicate_append heap3 [0, 1] [2, 0]).map
        (fun r => (r.2, io_chain_get r.1 r.2 1, io_chain_get r.1 r.2 2, io_chain_get r.1 r.2 7))
      = some ([2, 0, 3, 4], some (some 4), some (some 2), some none) ∧
     io_chain_get heap3 [0, 1] 1 = some (some 1) ∧
     io_chain_get heap3 [2, 0] 1 = some (some 0) ∧
     (io_duplicate heap3 [0, 1]).map
        (fun r => (r.2, io_chain_get r.1 r.2 1, io_chain_get r.1 r.2 2))
      = some ([3, 4], some (some 4), some none)) ∧
    (∃ h1 dst1, io_duplicate_append heap3 [0, 1] [2, 0] = some (h1, dst1) ∧
      ∃ (i : Nat) (p p1 : Ptr), ([0, 1] : io_chain_t)[i]? = some p ∧
        entry_fd heap3 p = some 1 ∧
        io_chain_get heap3 [0, 1] 1 = some (some p) ∧
        dst1[([2, 0] : io_chain_t).length + i]? = some p1 ∧ heap3.get p1 = none ∧
        h1.get p1 = heap3.get p ∧
        io_chain_get h1 dst1 1 = some (some p1)) := by
  refine ⟨by decide, by decide, ?_⟩
  obtain ⟨⟨h1, dst1, hrun, hhit, -⟩, -⟩ :=
    io_chain_get_after_duplicate_append heap3 [0, 1] [2, 0] 1 (by decide) (by decide)
  obtain ⟨i, p, p1, hi, hfd, -, hget, hpos, hnew, hval, hres⟩ := hhit (by decide)
  exact ⟨h1, dst1, hrun, i, p, p1, hi, hfd, hget, hpos, hnew, hval, hres⟩

/-! ## Claims about buffered capture -/

theorem Heap.get_set_self {h : Heap} {p : Ptr} {v0 : io_data_t} (hp : h.get p = some v0)
    (v : io_data_t) : (h.set p v).get p = some v := by
  have hlt := Heap.lt_of_get_some hp
  simp [Heap.get_eq, Heap.set, List.getElem?_set, hlt]

theorem Heap.get_set_ne (h : Heap) {p q : Ptr} (hne : q ≠ p) (v : io_data_t) :
    (h.set p v).get q = h.get q := by
  have hne2 : ¬ p = q := fun e => hne e.symm
  simp [Heap.get_eq, Heap.set, List.getElem?_set, hne2]

/-- The read loop, started with `n` reads already made, when the results
numbered `n`, ..., `n + k - 1` are positive and result `n + k` is not: with
more than `k` units of fuel it returns after exactly `k + 1` reads, the buffer
has grown by the bytes of the `k` chunks, nothing else in the state has
changed, and the error diagnostics appear exactly for a negative last result
with `errno` other than `EAGAIN`. -/
theorem io_buffer_read_loop_spec (reads : Nat → read_result) (d : Ptr) (k : Nat) :
    ∀ (fuel : Nat) (w : World) (v : io_data_t), k < fuel → w.heap.get d = some v →
      (∀ i, i < k → 0 < (reads (w.read_fds.length + i)).l) →
      (reads (w.read_fds.length + k)).l ≤ 0 →
      ∃ w1, io_buffer_read_loop reads d fuel w = some w1 ∧
        w1.read_fds = w.read_fds ++ List.replicate (k + 1) v.pipe_fd0 ∧
        w1.heap.get d
          = some { v with out_buffer := v.out_buffer ++ drained reads w.read_fds.length k } ∧
        (∀ q, q ≠ d → w1.heap.get q = w.heap.get q) ∧
        w1.closed = w.closed ∧ w1.open_fds = w.open_fds ∧
        w1.diag = w.diag ++
          (if (reads (w.read_fds.length + k)).l < 0 ∧
              (reads (w.read_fds.length + k)).errno ≠ EAGAIN
           then [Diag.debug 1 (debug_msg.read_error v.pipe_fd0),
                 Diag.wperror wperror_tag.io_buffer_read]
           else []) := by
  induction k with
  | zero =>
    intro fuel w v hfuel hv _ hlast
    obtain ⟨fuel, rfl⟩ : ∃ m, fuel = m + 1 := ⟨fuel - 1, by omega⟩
    simp only [Nat.add_zero] at hlast ⊢
    by_cases h0 : (reads w.read_fds.length).l = 0
    · refine ⟨_, by simp only [io_buffer_read_loop, hv, h0, if_true]; rfl, ?_⟩
      simp [drained, h0, hv]
    · have hneg : (reads w.read_fds.length).l < 0 := lt_of_le_of_ne hlast h0
      by_cases he : (reads w.read_fds.length).errno = EAGAIN
      · refine ⟨_, by simp only [io_buffer_read_loop, hv, h0, hneg, he, if_true, if_false,
          ne_eq, not_true_eq_false]; rfl, ?_⟩
        simp [drained, he, hv]
      · refine ⟨_, by simp only [io_buffer_read_loop, hv, h0, hneg, he, if_true, if_false,
          ne_eq, not_false_eq_true]; rfl, ?_⟩
        simp [drained, he, hneg, hv, wperror, debug]
  | succ k ih =>
    intro fuel w v hfuel hv hpos hlast
    obtain ⟨fuel, rfl⟩ : ∃ m, fuel = m + 1 := ⟨fuel - 1, by omega⟩
    have hp0 : 0 < (reads w.read_fds.length).l := by simpa using hpos 0 (Nat.succ_pos k)
    have h0 : ¬ (reads w.read_fds.length).l = 0 := ne_of_gt hp0
    have hneg : ¬ (reads w.read_fds.length).l < 0 := not_lt.mpr (le_of_lt hp0)
    have hstep : io_buffer_read_loop reads d (fuel + 1) w
        = io_buffer_read_loop reads d fuel
            { w with
              read_fds := w.read_fds ++ [v.pipe_fd0]
              heap := w.heap.set d
                (v.out_buffer_append (reads w.read_fds.length).b (reads w.read_fds.length).l) } := by
      simp only [io_buffer_read_loop, hv, h0, hneg, if_false]
    have hlen : (w.read_fds ++ [v.pipe_fd0]).length = w.read_fds.length + 1 := by simp
    obtain ⟨w1, hrun, hreads, hbuf, hframe, hclosed, hopen, hdiag⟩ :=
      ih fuel
        { w with
          read_fds := w.read_fds ++ [v.pipe_fd0]
          heap := w.heap.set d
            (v.out_buffer_append (reads w.read_fds.length).b (reads w.read_fds.length).l) }
        (v.out_buffer_append (reads w.read_fds.length).b (reads w.read_fds.length).l)
        (by omega) (Heap.get_set_self hv _)
        (by
          intro i hi
          simp only [hlen]
          have := hpos (i + 1) (by omega)
          rwa [show w.read_fds.length + 1 + i = w.read_fds.length + (i + 1) by omega])
        (by
          simp only [hlen]
          rwa [show w.read_fds.length + 1 + k = w.read_fds.length + (k + 1) by omega])
    simp only [hlen] at hreads hbuf hdiag
    rw [show w.read_fds.length + 1 + k = w.read_fds.length + (k + 1) by omega] at hdiag
    refine ⟨w1, by rw [hstep]; exact hrun, ?_, ?_, ?_, hclosed, hopen, hdiag⟩
    · rw [hreads]
      simp [io_data_t.out_buffer_append, List.replicate_succ]
    · rw [hbuf]
      simp [io_data_t.out_buffer_append, drained]
    · intro q hq
      rw [hframe q hq]
      exact Heap.get_set_ne w.heap hq _

/-- The whole of `io_buffer_read` on an `IO_BUFFER` entry, in the situation of
`io_buffer_read_loop_spec`. -/
theorem io_buffer_read_spec (reads : Nat → read_result) (d : Ptr) (k fuel : Nat)
    (w : World) (v : io_data_t)
    (hv : w.heap.get d = some v) (hmode : v.io_mode = io_mode_t.IO_BUFFER) (hfuel : k < fuel)
    (hpos : ∀ i, i < k → 0 < (reads (w.read_fds.length + i)).l)
    (hlast : (reads (w.read_fds.length + k)).l ≤ 0) :
    ∃ w1, io_buffer_read reads fuel d w = some w1 ∧
      w1.read_fds = w.read_fds ++ List.replicate (k + 1) v.pipe_fd0 ∧
      w1.heap.get d
        = some { v with out_buffer := v.out_buffer ++ drained reads w.read_fds.length k } ∧
      (∀ q, q ≠ d → w1.heap.get q = w.heap.get q) ∧
      w1.closed = w.closed ++ [v.pipe_fd1] ∧
      w1.diag = w.diag ++ [Diag.debug 4 (debug_msg.blocking_read v.pipe_fd0)] ++
        (if (reads (w.read_fds.length + k)).l < 0 ∧
            (reads (w.read_fds.length + k)).errno ≠ EAGAIN
         then [Diag.debug 1 (debug_msg.read_error v.pipe_fd0),
               Diag.wperror wperror_tag.io_buffer_read]
         else []) := by
  obtain ⟨w1, hrun, hreads, hbuf, hframe, hclosed, -, hdiag⟩ :=
    io_buffer_read_loop_spec reads d k fuel
      (debug (exec_close w v.pipe_fd1) 4 (debug_msg.blocking_read v.pipe_fd0)) v hfuel hv
      hpos hlast
  refine ⟨w1, ?_, hreads, hbuf, hframe, hclosed, hdiag⟩
  simp only [io_buffer_read, hv, hmode, if_true]
  exact hrun

/-- C9: let an `IO_BUFFER` entry be drained when the next `k` results of
`read_blocked` are positive and the one after them is zero or negative.  Then
`io_buffer_read` returns after exactly `k + 1` reads, all on the read end (it
stops at the first result that is zero or negative); the out buffer is its
prior contents followed by the `k` chunks in order; and besides the level-4
trace line, diagnostics are emitted (debug level 1, then wperror) if and only
if that last result is negative with `errno` other than `EAGAIN`. -/
theorem io_buffer_read_error_policy (reads : Nat → read_result) (d : Ptr) (k fuel : Nat)
    (w : World) (v : io_data_t)
    (hv : w.heap.get d = some v) (hmode : v.io_mode = io_mode_t.IO_BUFFER) (hfuel : k < fuel)
    (hpos : ∀ i, i < k → 0 < (reads (w.read_fds.length + i)).l)
    (hlast : (reads (w.read_fds.length + k)).l ≤ 0) :
    ∃ w1, io_buffer_read reads fuel d w = some w1 ∧
      w1.read_fds = w.read_fds ++ List.replicate (k + 1) v.pipe_fd0 ∧
      w1.heap.get d
        = some { v with out_buffer := v.out_buffer ++ drained reads w.read_fds.length k } ∧
      w1.diag = w.diag ++ [Diag.debug 4 (debug_msg.blocking_read v.pipe_fd0)] ++
        (if (reads (w.read_fds.length + k)).l < 0 ∧
            (reads (w.read_fds.length + k)).errno ≠ EAGAIN
         then [Diag.debug 1 (debug_msg.read_error v.pipe_fd0),
               Diag.wperror wperror_tag.io_buffer_read]
         else []) := by
  obtain ⟨w1, hrun, hreads, hbuf, -, -, hdiag⟩ :=
    io_buffer_read_spec reads d k fuel w v hv hmode hfuel hpos hlast
  exact ⟨w1, hrun, hreads, hbuf, hdiag⟩

/-- C9 on a buffer holding the byte 9: chunks of 2 and 1 bytes, then a failed
read with an `errno` other than `EAGAIN`. -/
theorem io_buffer_read_error_policy_witness :
    (world_buf.heap.get 0).map (fun v => v.out_buffer) = some [9] ∧
    (∀ i, i < 2 → 0 < (script [⟨2, [1, 2, 0, 0], 0⟩, ⟨1, [3], 0⟩, ⟨-1, [], 5⟩]
        (world_buf.read_fds.length + i)).l) ∧
    (script [⟨2, [1, 2, 0, 0], 0⟩, ⟨1, [3], 0⟩, ⟨-1, [], 5⟩]
        (world_buf.read_fds.length + 2)).l ≤ 0 ∧
    ∃ w1, io_buffer_read (script [⟨2, [1, 2, 0, 0], 0⟩, ⟨1, [3], 0⟩, ⟨-1, [], 5⟩]) 3 0 world_buf
        = some w1 ∧
      w1.read_fds = [5, 5, 5] ∧
      (w1.heap.get 0).map (fun v => v.out_buffer) = some [9, 1, 2, 3] ∧
      w1.diag = [Diag.debug 4 (debug_msg.blocking_read 5),
                 Diag.debug 1 (debug_msg.read_error 5),
                 Diag.wperror wperror_tag.io_buffer_read] := by
  refine ⟨by decide, by decide, by decide, ?_⟩
  obtain ⟨w1, hrun, hreads, hbuf, hdiag⟩ :=
    io_buffer_read_error_policy (script [⟨2, [1, 2, 0, 0], 0⟩, ⟨1, [3], 0⟩, ⟨-1, [], 5⟩])
      0 2 3 world_buf _ (by rfl) (by decide) (by decide) (by decide) (by decide)
  refine ⟨w1, hrun, ?_, ?_, ?_⟩
  · rw [hreads]; decide
  · rw [hbuf]; decide
  · rw [hdiag]; decide

theorem drained_eq_flatten (reads : Nat → read_result) (chunks : List (List Nat)) :
    ∀ n : Nat,
      (∀ (i : Nat) (b : List Nat), chunks[i]? = some b →
        (reads (n + i)).l = b.length ∧ (reads (n + i)).b.take b.length = b) →
      drained reads n chunks.length = chunks.flatten := by
  induction chunks with
  | nil => intro n _; rfl
  | cons b0 rest ih =>
    intro n hch
    have h0 := hch 0 b0 (by simp)
    simp only [Nat.add_zero] at h0
    have hrest := ih (n + 1) (by
      intro i b hb
      have := hch (i + 1) b (by simpa using hb)
      rwa [show n + (i + 1) = n + 1 + i by omega] at this)
    simp only [List.length_cons, drained, List.flatten_cons, hrest, h0.1, Int.toNat_ofNat, h0.2]

/-- C2: let an `IO_BUFFER` entry with an empty out buffer be drained when the
successive results of `read_blocked` deliver the chunks of a byte sequence in
order, each chunk of positive length at most 4096, followed by the result 0.
Then `io_buffer_read` returns (given more fuel than there are chunks) and the
out buffer is exactly the concatenation of the chunks: the same bytes in the
same order, of the same length; with no chunk at all it returns with the
buffer empty. -/
theorem io_buffer_read_round_trip (reads : Nat → read_result) (d : Ptr) (fuel : Nat)
    (w : World) (v : io_data_t) (chunks : List (List Nat))
    (hv : w.heap.get d = some v) (hmode : v.io_mode = io_mode_t.IO_BUFFER)
    (hempty : v.out_buffer = [])
    (hchunks : ∀ (i : Nat) (b : List Nat), chunks[i]? = some b →
      0 < b.length ∧ b.length ≤ 4096 ∧
      (reads (w.read_fds.length + i)).l = b.length ∧
      (reads (w.read_fds.length + i)).b.take b.length = b)
    (heof : (reads (w.read_fds.length + chunks.length)).l = 0)
    (hfuel : chunks.length < fuel) :
    ∃ w1, io_buffer_read reads fuel d w = some w1 ∧
      (w1.heap.get d).map (fun x => x.out_buffer) = some chunks.flatten ∧
      (chunks = [] → (w1.heap.get d).map (fun x => x.out_buffer) = some []) := by
  have hpos : ∀ i, i < chunks.length → 0 < (reads (w.read_fds.length + i)).l := by
    intro i hi
    have := hchunks i chunks[i] (List.getElem?_eq_getElem hi)
    rw [this.2.2.1]
    exact_mod_cast this.1
  obtain ⟨w1, hrun, -, hbuf, -, -, -⟩ :=
    io_buffer_read_spec reads d chunks.length fuel w v hv hmode hfuel hpos (le_of_eq heof)
  have hdr := drained_eq_flatten reads chunks w.read_fds.length
    (fun i b hb => (hchunks i b hb).2.2)
  have hout : (w1.heap.get d).map (fun x => x.out_buffer) = some chunks.flatten := by
    rw [hbuf, hdr, hempty]
    simp
  refine ⟨w1, hrun, hout, ?_⟩
  intro hnil
  rw [hout, hnil]
  rfl

/-- C2 for the three bytes 1, 2, 3 delivered as a chunk of two and a chunk of
one. -/
theorem io_buffer_read_round_trip_witness :
    ((world_buf_empty.heap.get 0).map (fun x => x.out_buffer) = some [] ∧
     (script [⟨2, [1, 2, 0, 0], 0⟩, ⟨1, [3], 0⟩]
        (world_buf_empty.read_fds.length + [[1, 2], [3]].length)).l = 0) ∧
    ∃ w1, io_buffer_read (script [⟨2, [1, 2, 0, 0], 0⟩, ⟨1, [3], 0⟩]) 3 0 world_buf_empty
        = some w1 ∧
      (w1.heap.get 0).map (fun x => x.out_buffer) = some [[1, 2], [3]].flatten ∧
      (([[1, 2], [3]] : List (List Nat)) = [] →
        (w1.heap.get 0).map (fun x => x.out_buffer) = some []) :=
  ⟨by decide,
   io_buffer_read_round_trip (script [⟨2, [1, 2, 0, 0], 0⟩, ⟨1, [3], 0⟩]) 0 3 world_buf_empty
    _ [[1, 2], [3]] (by rfl) (by decide) (by decide)
    (by
      intro i b hb
      match i, hb with
      | 0, hb => cases hb; decide
      | 1, hb => cases hb; decide
      | (j + 2), hb => simp at hb)
    (by decide) (by decide)⟩

theorem Heap.get_alloc_new (h : Heap) (v : io_data_t) :
    (h.alloc v).1.get h.cells.length = some v := by
  simp [Heap.alloc, Heap.get_eq]

/-- A successful `io_buffer_create`: the returned entry is a new object with
mode `IO_BUFFER`, the two pipe ends, an empty buffer, and `fd` and `is_input`
set from the argument; the two descriptors are open and nothing was closed,
read or reported. -/
theorem io_buffer_create_ok (w : World) (rd wr is_input : Int) :
    ∃ w1, io_buffer_create (some (rd, wr)) 0 is_input w = (w1, some w.heap.cells.length) ∧
      w1.heap.get w.heap.cells.length
        = some { io_mode := io_mode_t.IO_BUFFER, fd := if is_input ≠ 0 then 0 else 1,
                 pipe_fd0 := rd, pipe_fd1 := wr, is_input := decide (is_input ≠ 0),
                 out_buffer := [] } ∧
      w1.closed = w.closed ∧ w1.read_fds = w.read_fds ∧ w1.diag = w.diag ∧
      w1.open_fds = w.open_fds ++ [rd, wr] := by
  refine ⟨(io_buffer_create (some (rd, wr)) 0 is_input w).1, ?_, ?_, ?_, ?_, ?_, ?_⟩
  · simp [io_buffer_create, Heap.alloc]
  · simp only [io_buffer_create, ne_eq, not_true_eq_false, if_false]
    exact Heap.get_set_self (Heap.get_alloc_new w.heap _) _
  · simp [io_buffer_create]
  · simp [io_buffer_create]
  · simp [io_buffer_create]
  · simp [io_buffer_create]

/-- The effect of `io_buffer_destroy` on a live entry: the write end is closed
when `is_input` is set, then the read end is closed, then the entry is
deleted. -/
theorem io_buffer_destroy_spec (w : World) (d : Ptr) (v : io_data_t)
    (hv : w.heap.get d = some v) :
    ∃ w1, io_buffer_destroy d w = some w1 ∧
      w1.closed = w.closed ++ (if v.is_input then [v.pipe_fd1] else []) ++ [v.pipe_fd0] ∧
      w1.heap.get d = none := by
  obtain ⟨h1, hdel⟩ := Heap.delete_of_live (h := w.heap) (p := d) (by rw [hv]; rfl)
  have hgone : h1.get d = none := by rw [Heap.get_delete hdel d, if_pos rfl]
  cases hin : v.is_input with
  | true =>
    have hrun : io_buffer_destroy d w
        = some { exec_close (exec_close w v.pipe_fd1) v.pipe_fd0 with heap := h1 } := by
      simp only [io_buffer_destroy, hv, hin, if_true, exec_close, hdel]
    exact ⟨_, hrun, by simp [exec_close], hgone⟩
  | false =>
    have hrun : io_buffer_destroy d w
        = some { exec_close w v.pipe_fd0 with heap := h1 } := by
      simp [io_buffer_destroy, hv, hin, exec_close, hdel]
    exact ⟨_, hrun, by simp [exec_close], hgone⟩

/-- C7: when `io_buffer_create(is_input)` with `is_input` true succeeds on a
pipe with read end `rd` and write end `wr` and `io_buffer_destroy` is applied
to the returned entry right away, `exec_close` is called exactly twice: once
on the write end and once on the read end, and on no other descriptor. -/
theorem io_buffer_create_destroy_closes_each_end_once (w : World) (rd wr is_input : Int)
    (hin : is_input ≠ 0) (hne : rd ≠ wr) :
    ∃ d w1 w2, io_buffer_create (some (rd, wr)) 0 is_input w = (w1, some d) ∧
      io_buffer_destroy d w1 = some w2 ∧
      w2.closed = w.closed ++ [wr, rd] ∧
      (w2.closed.drop w.closed.length).count wr = 1 ∧
      (w2.closed.drop w.closed.length).count rd = 1 ∧
      (∀ x ∈ w2.closed.drop w.closed.length, x = wr ∨ x = rd) ∧
      w2.heap.get d = none := by
  obtain ⟨w1, hcreate, hentry, hclosed, -, -, -⟩ := io_buffer_create_ok w rd wr is_input
  obtain ⟨w2, hdestroy, hclosed2, hgone⟩ := io_buffer_destroy_spec w1 _ _ hentry
  have hc : w2.closed = w.closed ++ [wr, rd] := by
    rw [hclosed2, hclosed]
    simp [hin]
  have hne2 : wr ≠ rd := fun e => hne e.symm
  refine ⟨_, w1, w2, hcreate, hdestroy, hc, ?_, ?_, ?_, hgone⟩
  · rw [hc]; simp [List.count_cons, hne]
  · rw [hc]; simp [List.count_cons, hne2]
  · rw [hc]; simp

/-- C7 at the pipe (5, 6) in the empty state. -/
theorem io_buffer_create_destroy_closes_each_end_once_witness :
    ((1 : Int) ≠ 0 ∧ (5 : Int) ≠ 6) ∧
    ∃ d w1 w2, io_buffer_create (some (5, 6)) 0 1 World.init = (w1, some d) ∧
      io_buffer_destroy d w1 = some w2 ∧
      w2.closed = World.init.closed ++ [6, 5] ∧
      (w2.closed.drop World.init.closed.length).count 6 = 1 ∧
      (w2.closed.drop World.init.closed.length).count 5 = 1 ∧
      (∀ x ∈ w2.closed.drop World.init.closed.length, x = 6 ∨ x = 5) ∧
      w2.heap.get d = none :=
  ⟨by decide,
   io_buffer_create_destroy_closes_each_end_once World.init 5 6 1 (by decide) (by decide)⟩

/-- C8, as the code has it: for the entry returned by a successful
`io_buffer_create(is_input)` with `is_input` false (an output-capturing
buffer) on a pipe with distinct ends, a drain that terminates followed by
`io_buffer_destroy` passes each pipe end to `exec_close` exactly once: the
drain closes the write end and the destroy closes the read end only. -/
theorem drain_then_destroy_output_buffer (w : World) (rd wr : Int) (hne : rd ≠ wr)
    (reads : Nat → read_result) (k fuel : Nat) (hfuel : k < fuel)
    (hpos : ∀ i, i < k → 0 < (reads (w.read_fds.length + i)).l)
    (hlast : (reads (w.read_fds.length + k)).l ≤ 0) :
    ∃ d w1 w2 w3, io_buffer_create (some (rd, wr)) 0 0 w = (w1, some d) ∧
      io_buffer_read reads fuel d w1 = some w2 ∧
      io_buffer_destroy d w2 = some w3 ∧
      w2.closed = w.closed ++ [wr] ∧
      w3.closed = w.closed ++ [wr, rd] ∧
      (w3.closed.drop w.closed.length).Nodup := by
  obtain ⟨w1, hcreate, hentry, hclosed, hreads, -, -⟩ := io_buffer_create_ok w rd wr 0
  obtain ⟨w2, hread, -, hbuf, -, hclosed2, -⟩ :=
    io_buffer_read_spec reads _ k fuel w1 _ hentry rfl hfuel
      (by rw [hreads]; exact hpos) (by rw [hreads]; exact hlast)
  obtain ⟨w3, hdestroy, hclosed3, -⟩ := io_buffer_destroy_spec w2 _ _ hbuf
  have hc2 : w2.closed = w.closed ++ [wr] := by rw [hclosed2, hclosed]
  have hc3 : w3.closed = w.closed ++ [wr, rd] := by
    rw [hclosed3, hc2]
    simp
  have hne2 : ¬ wr = rd := fun e => hne e.symm
  refine ⟨_, w1, w2, w3, hcreate, hread, hdestroy, hc2, hc3, ?_⟩
  rw [hc3]
  simp [hne2]

/-- C8 for an output buffer on the pipe (5, 6): one chunk, then end of file. -/
theorem drain_then_destroy_output_buffer_witness :
    ((5 : Int) ≠ 6 ∧
     (∀ i, i < 1 → 0 < (script [⟨2, [1, 2], 0⟩] (World.init.read_fds.length + i)).l) ∧
     (script [⟨2, [1, 2], 0⟩] (World.init.read_fds.length + 1)).l ≤ 0) ∧
    ∃ d w1 w2 w3, io_buffer_create (some (5, 6)) 0 0 World.init = (w1, some d) ∧
      io_buffer_read (script [⟨2, [1, 2], 0⟩]) 2 d w1 = some w2 ∧
      io_buffer_destroy d w2 = some w3 ∧
      w2.closed = World.init.closed ++ [6] ∧
      w3.closed = World.init.closed ++ [6, 5] ∧
      (w3.closed.drop World.init.closed.length).Nodup :=
  ⟨by decide,
   drain_then_destroy_output_buffer World.init 5 6 (by decide) (script [⟨2, [1, 2], 0⟩]) 1 2
    (by decide) (by decide) (by decide)⟩

/-- C8 as stated fails for `is_input` true: on the entry created for the pipe
(5, 6), a drain (the script reports end of file at once) followed by
`io_buffer_destroy` passes the write end 6 to `exec_close` twice, once in the
drain and once more in the destroy. -/
theorem drain_then_destroy_input_buffer_closes_write_end_twice :
    ∃ w2 w3,
      io_buffer_read eof_script 1 0 (io_buffer_create (some (5, 6)) 0 1 World.init).1 = some w2 ∧
      (io_buffer_create (some (5, 6)) 0 1 World.init).2 = some 0 ∧
      w2.closed = [6] ∧
      io_buffer_destroy 0 w2 = some w3 ∧
      w3.closed = [6, 6, 5] ∧
      w3.closed.count 6 = 2 := by
  refine ⟨_, _, rfl, ?_, ?_, rfl, ?_, ?_⟩ <;> decide

/-- C6 fails on the code: when `exec_pipe` succeeds with the descriptors 5 and
6 and `fcntl` then fails, `io_buffer_create` reports the failure twice,
deletes the entry and returns NULL without a single call of `exec_close`: both
descriptors are still open. -/
theorem io_buffer_create_fcntl_failure_leaks :
    (io_buffer_create (some (5, 6)) (-1) 0 World.init).2 = none ∧
    (io_buffer_create (some (5, 6)) (-1) 0 World.init).1.closed = [] ∧
    (io_buffer_create (some (5, 6)) (-1) 0 World.init).1.open_fds = [5, 6] ∧
    (io_buffer_create (some (5, 6)) (-1) 0 World.init).1.heap.get 0 = none ∧
    (io_buffer_create (some (5, 6)) (-1) 0 World.init).1.diag
      = [Diag.debug 1 debug_msg.PIPE_ERROR, Diag.wperror wperror_tag.fcntl_tag] := by
  decide

end Fish
